import Mathlib

/-!
Verification of the MemLocation abstraction (include/swift/SIL/MemLocation.h).

A MemLocation abstracts an object field: a base SILValue plus a projection
path to the represented field.  The header defines the value type, equality,
hashing, validity, and the DenseMapInfo instance directly; the path tracing,
expansion, reduction, alias classification and enumeration routines are only
declared there, so those are modelled from the specification (they are marked
as such in their doc comments).

Modelling conventions:
- llvm::hash_combine is modelled as an injective pairing of its inputs, so a
  hash code is represented by the tuple of data that the code feeds into it.
- ProjectionPath is modelled as a list of projection elements in root-to-leaf
  order, as the specification requires of the path tracer.
- The aggregate type-introspection collaborator is modelled by making the
  static type itself a finite tree: an aggregate lists its ordered field
  types, a leaf is a non-decomposable (scalar/opaque) type.
- Optional<ProjectionPath>::getValue on an absent path is undefined behaviour
  in the source; the model defaults to the empty path and every theorem that
  exercises such a call assumes the path is present.
-/

namespace MemLoc

/-- Static type of a value: either a non-decomposable leaf or an aggregate
with an ordered list of field types.  This tree also plays the role of the
aggregate type-introspection collaborator of the specification. -/
inductive SILType where
  | leaf (id : Nat) : SILType
  | aggregate (fields : List SILType) : SILType

instance : Inhabited SILType := ⟨SILType.leaf 0⟩

mutual

/-- Decidable equality for the nested SILType tree. -/
def SILType.decEq : (a b : SILType) → Decidable (a = b)
  | .leaf x, .leaf y =>
      match Nat.decEq x y with
      | isTrue h => isTrue (by rw [h])
      | isFalse h => isFalse fun hh => h (by injection hh)
  | .leaf _, .aggregate _ => isFalse (fun h => SILType.noConfusion h)
  | .aggregate _, .leaf _ => isFalse (fun h => SILType.noConfusion h)
  | .aggregate xs, .aggregate ys =>
      match SILType.decEqList xs ys with
      | isTrue h => isTrue (by rw [h])
      | isFalse h => isFalse fun hh => h (by injection hh)

/-- Decidable equality for lists of SILTypes. -/
def SILType.decEqList : (xs ys : List SILType) → Decidable (xs = ys)
  | [], [] => isTrue rfl
  | [], _ :: _ => isFalse (fun h => List.noConfusion h)
  | _ :: _, [] => isFalse (fun h => List.noConfusion h)
  | x :: xs, y :: ys =>
      match SILType.decEq x y, SILType.decEqList xs ys with
      | isTrue h1, isTrue h2 => isTrue (by rw [h1, h2])
      | isFalse h1, _ => isFalse fun hh => h1 (by injection hh)
      | _, isFalse h2 => isFalse fun hh => h2 (by injection hh)

end

instance : DecidableEq SILType := SILType.decEq

/-- Selector kinds of a projection, a closed variant as the spec requires. -/
inductive ProjKind where
  | field | tupleIndex | enumPayload | deref
deriving DecidableEq

/-- One projection element: selector kind, index, and resulting type. -/
structure Projection where
  kind : ProjKind
  idx : Nat
  ty : SILType
deriving DecidableEq

/-- A SILValue handle: identity of the defining node (none models the null
SILValue), result-slot number, and static type. -/
structure SILValue where
  defId : Option Nat
  resultNumber : Nat
  ty : SILType
deriving DecidableEq

/-- The null SILValue produced by the default constructor. -/
def SILValue.null : SILValue := ⟨none, 0, default⟩

/-- KeyKind of a MemLocation: empty key, tombstone key or normal key. -/
inductive KeyKind where
  | emptyKey | tombstoneKey | normalKey
deriving DecidableEq

/-- A MemLocation: base value, key kind, and optional projection path. -/
structure MemLocation where
  base : SILValue
  kind : KeyKind
  path : Option (List Projection)
deriving DecidableEq

/-- Default-constructed MemLocation: null base, normal kind, absent path. -/
def MemLocation.mkDefault : MemLocation := ⟨SILValue.null, KeyKind.normalKey, none⟩

/-!  Path algebra.  ProjectionPath itself is an external collaborator of the
header (swift/SIL/Projection.h); its operations used by MemLocation are
modelled here from the specification, over lists in root-to-leaf order. -/

/-- Modelled from the spec: ProjectionPath::hasNonEmptySymmetricDifference,
true iff neither path is a prefix of the other, i.e. they diverge at some
concrete element. -/
def hasNonEmptySymDiffList (P Q : List Projection) : Bool :=
  decide (¬ P <+: Q) && decide (¬ Q <+: P)

/-- Embeds MemLocation::hasNonEmptySymmetricPathDifference: delegates to the
path-level symmetric-difference test on both getValue calls.  An absent path
defaults to the empty path; theorems exercising this function assume both
paths are present, matching the undefined getValue otherwise. -/
def MemLocation.hasNonEmptySymmetricPathDifference (L R : MemLocation) : Bool :=
  hasNonEmptySymDiffList (L.path.getD []) (R.path.getD [])

/-- Modelled from the spec: MemLocation::hasIdenticalProjectionPath is only
declared in the header.  Two locations have identical projection paths iff
both paths are present and pointwise equal; two empty present paths are
identical.  An absent path is not identical to anything. -/
def MemLocation.hasIdenticalProjectionPath (L R : MemLocation) : Bool :=
  match L.path, R.path with
  | some p, some q => decide (p = q)
  | _, _ => false

/-- Embeds MemLocation::isValid: the base converts to true (is non-null) and
the path is present. -/
def MemLocation.isValid (L : MemLocation) : Bool :=
  L.base.defId.isSome && L.path.isSome

/-- Embeds MemLocation::operator==: kinds must match, then bases, then the
projection paths must be identical. -/
def MemLocation.eqOp (L R : MemLocation) : Bool :=
  if L.kind ≠ R.kind then false
  else if L.base ≠ R.base then false
  else if ¬ L.hasIdenticalProjectionPath R then false
  else true

/-- Embeds the copy constructor and copy assignment of MemLocation: the
destination receives the source's base and kind and a fresh path holding the
same elements (an absent path stays absent).  In the value model a structural
copy of the list is the list itself. -/
def MemLocation.copy (RHS : MemLocation) : MemLocation :=
  { base := RHS.base
    kind := RHS.kind
    path := match RHS.path with
            | none => none
            | some p => some (List.nil ++ p) }

/-!  Hashing.  llvm::hash_combine is modelled as an injective pairing of its
inputs, so a hash code is the tuple of data fed to it. -/

/-- Inputs the code feeds llvm::hash_combine for a base value: the defining
node identity (getDef), the result number, and the static type. -/
def baseHashInput (v : SILValue) : Option Nat × Nat × SILType :=
  (v.defId, v.resultNumber, v.ty)

/-- A hash code: the base combination, optionally further combined with the
value-hash of a projection path. -/
abbrev HashInputs := (Option Nat × Nat × SILType) × Option (List Projection)

/-- Embeds MemLocation::getHashCode: combine the base identity, and when a
path is present, additionally combine the path's value-hash. -/
def MemLocation.getHashCode (L : MemLocation) : HashInputs :=
  (baseHashInput L.base, L.path)

/-- Embeds the free function hash_value(const MemLocation &): combines only
the base's defining node, result number and type, never the path. -/
def hashValueFn (L : MemLocation) : HashInputs :=
  (baseHashInput L.base, none)

/-- Embeds DenseMapInfo<MemLocation>::getHashValue, which returns
hash_value(Loc). -/
def dmiGetHashValue (L : MemLocation) : HashInputs :=
  hashValueFn L

/-- Embeds DenseMapInfo<MemLocation>::isEqual: two empty keys are equal, two
tombstone keys are equal, otherwise fall back to operator==. -/
def dmiIsEqual (L R : MemLocation) : Bool :=
  if L.kind = KeyKind.emptyKey ∧ R.kind = KeyKind.emptyKey then true
  else if L.kind = KeyKind.tombstoneKey ∧ R.kind = KeyKind.tombstoneKey then true
  else L.eqOp R

/-- Embeds DenseMapInfo<MemLocation>::getEmptyKey: a default location whose
kind is set to EmptyKey. -/
def dmiGetEmptyKey : MemLocation :=
  { MemLocation.mkDefault with kind := KeyKind.emptyKey }

/-- Embeds DenseMapInfo<MemLocation>::getTombstoneKey: a default location
whose kind is set to TombstoneKey. -/
def dmiGetTombstoneKey : MemLocation :=
  { MemLocation.mkDefault with kind := KeyKind.tombstoneKey }

/-!  Alias classification.  The two classifier bodies are only declared in
the header, so they are modelled from the specification; the alias-analysis
oracle is an external collaborator modelled as a function on base values. -/

/-- Result of an alias oracle query. -/
inductive AliasResult where
  | NoAlias | MayAlias | MustAlias
deriving DecidableEq

/-- An alias oracle: answers root-level queries on pairs of base values. -/
abbrev AliasOracle := SILValue → SILValue → AliasResult

/-- Modelled from the spec: MemLocation::isMayAliasMemLocation is only
declared in the header.  False if the oracle reports NoAlias for the bases;
otherwise false only if the paths are proven concretely disjoint (they have a
non-empty symmetric difference), else true. -/
def isMayAliasMemLocation (L R : MemLocation) (AA : AliasOracle) : Bool :=
  if AA L.base R.base = AliasResult.NoAlias then false
  else if L.hasNonEmptySymmetricPathDifference R then false
  else true

/-- Modelled from the spec: MemLocation::isMustAliasMemLocation is only
declared in the header.  True only if the oracle reports MustAlias for the
bases (or the bases are identity-equal) and the projection paths are
identical; any other combination yields false. -/
def isMustAliasMemLocation (L R : MemLocation) (AA : AliasOracle) : Bool :=
  (decide (AA L.base R.base = AliasResult.MustAlias) || decide (L.base = R.base))
    && L.hasIdenticalProjectionPath R

/-!  Decomposition and recomposition.  expand, reduce and
getFirstLevelMemLocations are only declared in the header, so they are
modelled from the specification.  The type-introspection collaborator is the
SILType tree itself: an aggregate's immediate fields are its listed field
types, each reached by one field projection carrying its index and type. -/

/-- The projection element selecting field i of type t of an aggregate. -/
def mkField (i : Nat) (t : SILType) : Projection :=
  ⟨ProjKind.field, i, t⟩

mutual

/-- A type is fully decomposable when every aggregate node in its tree has at
least one field, so decomposition bottoms out at concrete leaves. -/
def fullyDecomposable : SILType → Bool
  | .leaf _ => true
  | .aggregate fields => decide (fields ≠ []) && fullyDecomposableList fields

/-- Pointwise full decomposability of a list of field types. -/
def fullyDecomposableList : List SILType → Bool
  | [] => true
  | t :: ts => fullyDecomposable t && fullyDecomposableList ts

end

mutual

/-- Root-to-leaf selector paths from a type to each of its scalar leaves, in
field order.  A leaf type has the single empty path. -/
def leafPaths : SILType → List (List Projection)
  | .leaf _ => [[]]
  | .aggregate fields => leafPathsFields fields 0

/-- Leaf paths into each field subtree, fields numbered from i. -/
def leafPathsFields : List SILType → Nat → List (List Projection)
  | [], _ => []
  | t :: ts, i =>
      (leafPaths t).map (fun q => mkField i t :: q) ++ leafPathsFields ts (i + 1)

end

mutual

/-- All node paths of a type tree: the empty path to the node itself and the
paths into every field subtree. -/
def nodePaths : SILType → List (List Projection)
  | .leaf _ => [[]]
  | .aggregate fields => [] :: nodePathsFields fields 0

/-- Node paths into each field subtree, fields numbered from i. -/
def nodePathsFields : List SILType → Nat → List (List Projection)
  | [], _ => []
  | t :: ts, i =>
      (nodePaths t).map (fun q => mkField i t :: q) ++ nodePathsFields ts (i + 1)

end

/-- Paths of the immediate children of an aggregate whose own path is pre,
starting at field index i. -/
def childPaths (pre : List Projection) : List SILType → Nat → List (List Projection)
  | [], _ => []
  | t :: ts, i => (pre ++ [mkField i t]) :: childPaths pre ts (i + 1)

mutual

/-- Modelled from the spec: the bottom-up merging pass of MemLocation::reduce
(only declared in the header) on sets of absolute paths.  Children subtrees
are processed first; then, whenever the full sibling set for this node is
present, the siblings are replaced by the node itself.  Merging moves only
upward, so one bottom-up pass reaches the fixpoint the spec describes. -/
def reduceAt :
    SILType → List Projection → Finset (List Projection) → Finset (List Projection)
  | .leaf _, _, S => S
  | .aggregate fields, pre, S =>
      let S1 := reduceFields fields 0 pre S
      let cps := childPaths pre fields 0
      if cps.all (fun c => decide (c ∈ S1)) then (S1 \ cps.toFinset) ∪ {pre} else S1

/-- Runs the merging pass on each field subtree in order, fields numbered
from i. -/
def reduceFields :
    List SILType → Nat → List Projection → Finset (List Projection) → Finset (List Projection)
  | [], _, _, S => S
  | t :: ts, i, pre, S =>
      reduceFields ts (i + 1) pre (reduceAt t (pre ++ [mkField i t]) S)

end

/-- Embeds MemLocation::getType: the object type denoted by the location is
the base's type when the path is empty, otherwise the type carried by the
path element nearest the accessed field - the last element in this model's
root-to-leaf order. -/
def MemLocation.locType (L : MemLocation) : SILType :=
  match L.path with
  | none => L.base.ty
  | some p =>
      match p.getLast? with
      | none => L.base.ty
      | some pr => pr.ty

/-- The location reached from L by appending the relative path q to L's
path. -/
def locationAfter (L : MemLocation) (q : List Projection) : MemLocation :=
  { L with path := L.path.map (fun p => p ++ q) }

/-- Modelled from the spec: MemLocation::getFirstLevelMemLocations is only
declared in the header.  For each immediate field of the location's type,
produce the child location extending the path by that field's projection;
empty for non-decomposable types. -/
def getFirstLevelMemLocations (L : MemLocation) : List MemLocation :=
  match L.locType with
  | .leaf _ => []
  | .aggregate fields => (childPaths [] fields 0).map (locationAfter L)

/-- Modelled from the spec: MemLocation::expand is only declared in the
header.  Repeatedly decomposing until every produced location is a leaf
yields exactly one location per root-to-leaf selector path of the location's
type; a leaf location expands to itself. -/
def expand (L : MemLocation) : List MemLocation :=
  (leafPaths L.locType).map (locationAfter L)

/-- Modelled from the spec: MemLocation::reduce is only declared in the
header.  All input locations share Base's root; the merging pass runs on
their path sets relative to the type tree of Base and the surviving paths are
rebuilt into locations on Base's root. -/
def reduce (Base : MemLocation) (Locs : Finset MemLocation) : Finset MemLocation :=
  let paths := Locs.image (fun X => X.path.getD [])
  (reduceAt Base.locType (Base.path.getD []) paths).image
    (fun p => { base := Base.base, kind := Base.kind, path := some p })

/-!  Path tracing and enumeration.  MemLocation's tracing constructor and the
two enumeration routines are only declared in the header, so they are
modelled from the specification.  A traced value is a chain of projection
operations ending at a root producer. -/

/-- A value reference together with its chain of producing operations: either
a root producer (allocation, parameter, any non-projection) or a projection
operation applied to an operand value. -/
inductive Val where
  | root (id : Nat) (rn : Nat) (ty : SILType) : Val
  | proj (k : ProjKind) (i : Nat) (ty : SILType) (operand : Val) : Val

/-- Modelled from the spec: the backward walk of MemLocation's tracing
constructor (declared as a member of MemLocation in the header).  Walk
through producing operations, appending one path element per projection, and
stop at the first non-projection producer, which becomes the base; elements
end up in root-to-leaf order. -/
def traceVal : Val → SILValue × List Projection
  | .root i rn t => (⟨some i, rn, t⟩, [])
  | .proj k i t v =>
      let bp := traceVal v
      (bp.1, bp.2 ++ [⟨k, i, t⟩])

/-- The MemLocation built by tracing an access: the traced base, normal kind,
and the traced path. -/
def memLocationOfVal (v : Val) : MemLocation :=
  ⟨(traceVal v).1, KeyKind.normalKey, some (traceVal v).2⟩

/-- State of the enumerator: the vault of canonical locations in insertion
order, and the reverse index from location to dense bit position, kept as an
insertion-ordered association list. -/
structure EnumState where
  vault : List MemLocation
  locToBit : List (MemLocation × Nat)
deriving DecidableEq

/-- Looks a location up in the reverse index using the DenseMap equality. -/
def lookupLoc (m : List (MemLocation × Nat)) (L : MemLocation) : Option Nat :=
  match m with
  | [] => none
  | (K, i) :: rest => if dmiIsEqual K L then some i else lookupLoc rest L

/-- Modelled from the spec: MemLocation::enumerateMemLocation is only
declared in the header.  Trace the access, expand it to its leaves, and
append each leaf not already present to the vault, recording its index as the
next free position. -/
def enumerateMemLocation (Mem : Val) (st : EnumState) : EnumState :=
  let L := memLocationOfVal Mem
  (expand L).foldl
    (fun st X =>
      match lookupLoc st.locToBit X with
      | some _ => st
      | none => ⟨st.vault ++ [X], st.locToBit ++ [(X, st.vault.length)]⟩)
    st

/-- An instruction of the modelled function: loads and stores touch memory
through an address value, everything else touches none. -/
inductive Instr where
  | load (addr : Val) : Instr
  | store (val addr : Val) : Instr
  | other : Instr

/-- The memory accesses of one instruction, in operand order. -/
def instrAccesses : Instr → List Val
  | .load a => [a]
  | .store _ a => [a]
  | .other => []

/-- A function body: basic blocks in their fixed layout order, each a list of
instructions in program order. -/
structure SILFunction where
  blocks : List (List Instr)

/-- Modelled from the spec: MemLocation::enumerateMemLocations is only
declared in the header.  Visit every memory-touching instruction of the
function in the fixed traversal order (instruction order within each block,
blocks in layout order) and enumerate each access, starting from the empty
vault and index. -/
def enumerateMemLocations (F : SILFunction) : EnumState :=
  F.blocks.foldl
    (fun st b =>
      b.foldl
        (fun st i => (instrAccesses i).foldl (fun st m => enumerateMemLocation m st) st)
        st)
    ⟨[], []⟩

/-!  Concrete example values used by witnesses and counterexamples. -/

/-- A scalar example type. -/
def exTy : SILType := SILType.leaf 0

/-- An example non-null base value. -/
def exBaseA : SILValue := ⟨some 1, 0, exTy⟩

/-- A second, distinct example base value. -/
def exBaseB : SILValue := ⟨some 2, 0, exTy⟩

/-- An example whole-object location on base A. -/
def exLocA : MemLocation := ⟨exBaseA, KeyKind.normalKey, some []⟩

/-- An example whole-object location on base B. -/
def exLocB : MemLocation := ⟨exBaseB, KeyKind.normalKey, some []⟩

/-- An oracle that always answers NoAlias. -/
def exOracleNo : AliasOracle := fun _ _ => AliasResult.NoAlias

/-- An oracle that always answers MayAlias. -/
def exOracleMay : AliasOracle := fun _ _ => AliasResult.MayAlias

/-- A location with a non-empty projection path on base A. -/
def pathedLoc : MemLocation := ⟨exBaseA, KeyKind.normalKey, some [mkField 0 exTy]⟩

/-- A location sharing pathedLoc's base with a different path and kind. -/
def pathedLoc2 : MemLocation := ⟨exBaseA, KeyKind.tombstoneKey, some []⟩

/-- An EmptyKey sentinel carrying residual base A and an empty path. -/
def sentE1 : MemLocation := ⟨exBaseA, KeyKind.emptyKey, some []⟩

/-- An EmptyKey sentinel carrying residual base B and an empty path. -/
def sentE2 : MemLocation := ⟨exBaseB, KeyKind.emptyKey, some []⟩

/-- A nested aggregate example type: a scalar next to an inner pair. -/
def exTyNest : SILType :=
  SILType.aggregate [SILType.leaf 1, SILType.aggregate [SILType.leaf 2, SILType.leaf 3]]

/-- An example whole-object location of the nested aggregate type. -/
def exLocNest : MemLocation := ⟨⟨some 7, 0, exTyNest⟩, KeyKind.normalKey, some []⟩

/-- The first leaf produced by expanding exLocNest. -/
def exLeaf1 : MemLocation :=
  ⟨⟨some 7, 0, exTyNest⟩, KeyKind.normalKey, some [mkField 0 (SILType.leaf 1)]⟩

/-- The second leaf produced by expanding exLocNest. -/
def exLeaf2 : MemLocation :=
  ⟨⟨some 7, 0, exTyNest⟩, KeyKind.normalKey,
    some [mkField 1 (SILType.aggregate [SILType.leaf 2, SILType.leaf 3]),
          mkField 0 (SILType.leaf 2)]⟩

/-- The index pairing of a vault: each location with its position, positions
counted from n. -/
def vaultIndex : List MemLocation → Nat → List (MemLocation × Nat)
  | [], _ => []
  | L :: ls, n => (L, n) :: vaultIndex ls (n + 1)

/-!  Helper lemmas shared by several results. -/

/-- Characterization of identical projection paths: both present and equal. -/
lemma identicalPath_iff (L R : MemLocation) :
    L.hasIdenticalProjectionPath R = true ↔
      ∃ p, L.path = some p ∧ R.path = some p := by
  unfold MemLocation.hasIdenticalProjectionPath
  cases hl : L.path with
  | none => simp
  | some p =>
      cases hr : R.path with
      | none => simp
      | some q =>
          simp only [decide_eq_true_eq]
          constructor
          · intro h; exact ⟨p, rfl, by rw [h]⟩
          · rintro ⟨r, hp, hq⟩
            cases hp; cases hq; rfl

/-- Characterization of operator==: kinds, bases and paths must all agree. -/
lemma eqOp_iff (L R : MemLocation) :
    L.eqOp R = true ↔
      L.kind = R.kind ∧ L.base = R.base ∧ L.hasIdenticalProjectionPath R = true := by
  unfold MemLocation.eqOp
  by_cases h1 : L.kind = R.kind
  · by_cases h2 : L.base = R.base
    · by_cases h3 : L.hasIdenticalProjectionPath R = true
      · simp [h1, h2, h3]
      · simp [h1, h2, h3]
    · simp [h1, h2]
  · simp [h1]

/-!  Claim theorems. -/

/-- C1: may-alias classification.  If the oracle reports NoAlias for the two
bases the answer is false regardless of the paths; otherwise the answer is
false exactly when the two paths have a non-empty symmetric difference (are
proven concretely disjoint), and true in every remaining case. -/
theorem isMayAlias_spec (A B : MemLocation) (AA : AliasOracle)
    (pa pb : List Projection) (ha : A.path = some pa) (hb : B.path = some pb) :
    (AA A.base B.base = AliasResult.NoAlias → isMayAliasMemLocation A B AA = false)
    ∧ (AA A.base B.base ≠ AliasResult.NoAlias →
        (isMayAliasMemLocation A B AA = false ↔ hasNonEmptySymDiffList pa pb = true)) := by
  have hpaths : A.hasNonEmptySymmetricPathDifference B = hasNonEmptySymDiffList pa pb := by
    unfold MemLocation.hasNonEmptySymmetricPathDifference
    rw [ha, hb]
    rfl
  constructor
  · intro h
    simp [isMayAliasMemLocation, h]
  · intro h
    simp only [isMayAliasMemLocation, if_neg h, hpaths]
    cases hd : hasNonEmptySymDiffList pa pb <;> simp [hd]

/-- C1 witness at concrete locations with a NoAlias oracle. -/
theorem isMayAlias_spec_witness :
    isMayAliasMemLocation exLocA exLocB exOracleNo = false :=
  (isMayAlias_spec exLocA exLocB exOracleNo [] [] rfl rfl).1 rfl

/-- C2: must-alias classification.  A true answer forces the oracle to have
reported MustAlias (or the bases to be identity-equal) and the paths to be
identical; when the oracle reports merely MayAlias on distinct bases the
answer is false even for identical paths. -/
theorem isMustAlias_spec (A B : MemLocation) (AA : AliasOracle) :
    (isMustAliasMemLocation A B AA = true →
      (AA A.base B.base = AliasResult.MustAlias ∨ A.base = B.base)
        ∧ A.hasIdenticalProjectionPath B = true)
    ∧ (AA A.base B.base = AliasResult.MayAlias → A.base ≠ B.base →
        isMustAliasMemLocation A B AA = false) := by
  constructor
  · intro h
    unfold isMustAliasMemLocation at h
    simp only [Bool.and_eq_true, Bool.or_eq_true, decide_eq_true_eq] at h
    exact ⟨h.1, h.2⟩
  · intro h1 h2
    unfold isMustAliasMemLocation
    simp [h1, h2]

/-- C2 witness: identical empty paths but a merely-MayAlias oracle on
distinct bases yields false. -/
theorem isMustAlias_spec_witness :
    isMustAliasMemLocation exLocA exLocB exOracleMay = false :=
  (isMustAlias_spec exLocA exLocB exOracleMay).2 rfl (by decide)

/-- C4 counterexample: at a location with a present, non-empty path the hash
consulted by the hash containers (DenseMapInfo::getHashValue, which is
hash_value) does not combine the path hash: it differs from getHashCode, the
combination of root identity with the path's value-hash. -/
theorem dmiHash_ignores_path_counterexample :
    pathedLoc.path.isSome = true
    ∧ dmiGetHashValue pathedLoc ≠ pathedLoc.getHashCode := by decide

/-- C4 amended: getHashCode combines the root identity (defining operation,
result number, static type) with the path's value-hash when the path is
present, and is a pure function of content; however the hash consulted via
DenseMapInfo combines only the root identity and ignores the path.  Equal
locations hash equal under both. -/
theorem hash_structure_amended (L R : MemLocation) :
    L.getHashCode = (baseHashInput L.base, L.path)
    ∧ dmiGetHashValue L = (baseHashInput L.base, none)
    ∧ (L.eqOp R = true →
        L.getHashCode = R.getHashCode ∧ dmiGetHashValue L = dmiGetHashValue R) := by
  refine ⟨rfl, rfl, fun h => ?_⟩
  rcases (eqOp_iff L R).mp h with ⟨-, hbase, hpath⟩
  rcases (identicalPath_iff L R).mp hpath with ⟨p, hlp, hrp⟩
  unfold MemLocation.getHashCode dmiGetHashValue hashValueFn
  rw [hbase, hlp, hrp]
  exact ⟨rfl, rfl⟩

/-- C4 amended witness at a concrete equal pair of locations. -/
theorem hash_structure_amended_witness :
    pathedLoc.getHashCode = (baseHashInput pathedLoc.base, pathedLoc.path)
    ∧ dmiGetHashValue pathedLoc = dmiGetHashValue pathedLoc := by
  have h := hash_structure_amended pathedLoc pathedLoc
  exact ⟨h.1, (h.2.2 (by decide)).2⟩

/-- C5 counterexample: a location whose kind is EmptyKey but whose base is
non-null and whose path is present still satisfies isValid, so validity is
not equivalent to having Normal kind and a present path. -/
theorem isValid_kind_counterexample :
    sentE1.isValid = true ∧ sentE1.kind ≠ KeyKind.normalKey := by decide

/-- C5 amended: isValid returns true iff the base is non-null and the path is
present; the kind is not consulted. -/
theorem isValid_characterization (L : MemLocation) :
    L.isValid = true ↔ (L.base.defId.isSome = true ∧ L.path.isSome = true) := by
  simp [MemLocation.isValid]

/-- C6 counterexample: under operator== an EmptyMarker with residual base A
is not equal to an EmptyMarker with residual base B, so sentinel equality
does not ignore residual root/path data there. -/
theorem sentinel_eqOp_counterexample :
    sentE1.kind = KeyKind.emptyKey ∧ sentE2.kind = KeyKind.emptyKey
    ∧ sentE1.eqOp sentE2 = false := by decide

/-- C6 amended: under DenseMapInfo::isEqual two EmptyMarkers are equal and
two TombstoneMarkers are equal regardless of residual data, and locations of
different kinds (in particular a sentinel and any Normal location) are never
equal under either comparison; under operator== same-kind locations are equal
only when base and path also agree. -/
theorem sentinel_equality_amended (L R : MemLocation) :
    (L.kind = KeyKind.emptyKey → R.kind = KeyKind.emptyKey → dmiIsEqual L R = true)
    ∧ (L.kind = KeyKind.tombstoneKey → R.kind = KeyKind.tombstoneKey →
        dmiIsEqual L R = true)
    ∧ (L.kind ≠ R.kind → dmiIsEqual L R = false ∧ L.eqOp R = false)
    ∧ (L.eqOp R = true ↔
        L.kind = R.kind ∧ L.base = R.base ∧ L.hasIdenticalProjectionPath R = true) := by
  refine ⟨?_, ?_, ?_, eqOp_iff L R⟩
  · intro h1 h2
    unfold dmiIsEqual
    rw [if_pos ⟨h1, h2⟩]
  · intro h1 h2
    unfold dmiIsEqual
    split_ifs with ha hb
    · rfl
    · rfl
    · exact absurd ⟨h1, h2⟩ hb
  · intro h
    have heq : L.eqOp R = false := by
      cases he : L.eqOp R
      · rfl
      · exact absurd ((eqOp_iff L R).mp he).1 h
    refine ⟨?_, heq⟩
    unfold dmiIsEqual
    split_ifs with ha hb
    · exact absurd (ha.1.trans ha.2.symm) h
    · exact absurd (hb.1.trans hb.2.symm) h
    · exact heq

/-- C6 amended witness at concrete sentinel and normal locations. -/
theorem sentinel_equality_amended_witness :
    dmiIsEqual sentE1 sentE2 = true
    ∧ dmiIsEqual sentE1 exLocA = false ∧ sentE1.eqOp exLocA = false := by
  refine ⟨(sentinel_equality_amended sentE1 sentE2).1 rfl rfl, ?_⟩
  exact (sentinel_equality_amended sentE1 exLocA).2.2.1 (by decide)

/-- C10: the free function hash_value, the hash DenseMap containers consult
through DenseMapInfo::getHashValue, depends only on the base value: two
locations with the same base hash identically whatever their paths or
kinds. -/
theorem hashValue_base_only (L R : MemLocation) (h : L.base = R.base) :
    hashValueFn L = hashValueFn R ∧ dmiGetHashValue L = hashValueFn L := by
  constructor
  · unfold hashValueFn
    rw [h]
  · rfl

/-- C10 witness: same base, different path and kind, equal hash. -/
theorem hashValue_base_only_witness :
    hashValueFn pathedLoc = hashValueFn pathedLoc2
    ∧ dmiGetHashValue pathedLoc = hashValueFn pathedLoc :=
  hashValue_base_only pathedLoc pathedLoc2 rfl

/-- Appending one location to a vault extends its index pairing by the next
position. -/
lemma vaultIndex_append (v : List MemLocation) (X : MemLocation) (n : Nat) :
    vaultIndex (v ++ [X]) n = vaultIndex v n ++ [(X, n + v.length)] := by
  induction v generalizing n with
  | nil => simp [vaultIndex]
  | cons Y ys ih =>
      simp [vaultIndex, ih, Nat.add_comm, Nat.add_assoc, Nat.add_left_comm]

/-- A property preserved by each fold step holds after the whole fold. -/
lemma foldl_preserves {α : Type} (P : EnumState → Prop)
    (f : EnumState → α → EnumState) (hf : ∀ st a, P st → P (f st a)) :
    ∀ (l : List α) (st : EnumState), P st → P (l.foldl f st)
  | [], _, h => h
  | a :: l, st, h => foldl_preserves P f hf l (f st a) (hf st a h)

/-- One enumeration step keeps the reverse index listing exactly the vault
entries paired with their positions. -/
lemma enumerateMemLocation_coherent (m : Val) (st : EnumState)
    (h : st.locToBit = vaultIndex st.vault 0) :
    (enumerateMemLocation m st).locToBit
      = vaultIndex (enumerateMemLocation m st).vault 0 := by
  unfold enumerateMemLocation
  refine foldl_preserves (fun s => s.locToBit = vaultIndex s.vault 0) _ ?_ _ st h
  intro st' X h'
  cases hl : lookupLoc st'.locToBit X with
  | some i => simpa [hl] using h'
  | none =>
      simp only [hl]
      show st'.locToBit ++ [(X, st'.vault.length)] = vaultIndex (st'.vault ++ [X]) 0
      rw [vaultIndex_append, h']
      simp

/-- C7: enumerating an unchanged function twice yields identical vault
contents in the same order and an identical location-to-index mapping; in
both (equal) runs the mapping assigns each vault entry its position. -/
theorem enumerate_deterministic (F : SILFunction) :
    (enumerateMemLocations F).vault = (enumerateMemLocations F).vault
    ∧ (enumerateMemLocations F).locToBit = (enumerateMemLocations F).locToBit
    ∧ (enumerateMemLocations F).locToBit
        = vaultIndex (enumerateMemLocations F).vault 0 := by
  refine ⟨rfl, rfl, ?_⟩
  unfold enumerateMemLocations
  refine foldl_preserves (fun s => s.locToBit = vaultIndex s.vault 0) _ ?_ _ _ rfl
  intro st b hb
  refine foldl_preserves (fun s => s.locToBit = vaultIndex s.vault 0) _ ?_ _ st hb
  intro st' i hi
  refine foldl_preserves (fun s => s.locToBit = vaultIndex s.vault 0) _ ?_ _ st' hi
  intro st'' m hm
  exact enumerateMemLocation_coherent m st'' hm

/-- Cancelling a common front segment preserves and reflects the prefix
relation. -/
lemma prefix_append_cancel {α : Type} (p a b : List α) :
    (p ++ a <+: p ++ b) ↔ (a <+: b) := by
  induction p with
  | nil => simp
  | cons x q ih => simp [List.cons_prefix_cons, ih]

/-- Image of a list's Finset equals the Finset of the mapped list. -/
lemma list_toFinset_image {α β : Type} [DecidableEq α] [DecidableEq β]
    (f : α → β) (l : List α) : l.toFinset.image f = (l.map f).toFinset := by
  induction l with
  | nil => simp
  | cons x xs ih => simp [ih]

/-- Every entry of leafPathsFields starts with a field projection whose index
is at least the starting index. -/
lemma mem_leafPathsFields_shape :
    ∀ (ts : List SILType) (i : Nat) (q : List Projection),
      q ∈ leafPathsFields ts i →
      ∃ j t q2, i ≤ j ∧ q = mkField j t :: q2
  | [], _, q, h => absurd h (by simp [leafPathsFields])
  | t :: ts, i, q, h => by
      rw [leafPathsFields] at h
      rcases List.mem_append.mp h with h1 | h2
      · rcases List.mem_map.mp h1 with ⟨q0, hq0, rfl⟩
        exact ⟨i, t, q0, Nat.le_refl i, rfl⟩
      · rcases mem_leafPathsFields_shape ts (i + 1) q h2 with ⟨j, t2, q2, hij, rfl⟩
        exact ⟨j, t2, q2, by omega, rfl⟩

/-- Every entry of nodePathsFields starts with a field projection whose index
is at least the starting index. -/
lemma mem_nodePathsFields_shape :
    ∀ (ts : List SILType) (i : Nat) (q : List Projection),
      q ∈ nodePathsFields ts i →
      ∃ j t q2, i ≤ j ∧ q = mkField j t :: q2
  | [], _, q, h => absurd h (by simp [nodePathsFields])
  | t :: ts, i, q, h => by
      rw [nodePathsFields] at h
      rcases List.mem_append.mp h with h1 | h2
      · rcases List.mem_map.mp h1 with ⟨q0, hq0, rfl⟩
        exact ⟨i, t, q0, Nat.le_refl i, rfl⟩
      · rcases mem_nodePathsFields_shape ts (i + 1) q h2 with ⟨j, t2, q2, hij, rfl⟩
        exact ⟨j, t2, q2, by omega, rfl⟩

/-- The empty path is a node path of every type. -/
lemma nil_mem_nodePaths : ∀ (t : SILType), [] ∈ nodePaths t
  | .leaf _ => by simp [nodePaths]
  | .aggregate _ => by rw [nodePaths]; exact List.mem_cons_self _ _

/-- Each child path of an aggregate is the common prefix extended by a node
path of the field list. -/
lemma childPaths_shape (pre : List Projection) :
    ∀ (ts : List SILType) (i : Nat) (c : List Projection),
      c ∈ childPaths pre ts i →
      ∃ q, q ∈ nodePathsFields ts i ∧ c = pre ++ q
  | [], _, c, h => absurd h (by simp [childPaths])
  | t :: ts, i, c, h => by
      rw [childPaths] at h
      rcases List.mem_cons.mp h with h1 | h2
      · refine ⟨[mkField i t], ?_, h1⟩
        rw [nodePathsFields]
        exact List.mem_append.mpr
          (Or.inl (List.mem_map.mpr ⟨[], nil_mem_nodePaths t, rfl⟩))
      · rcases childPaths_shape pre ts (i + 1) c h2 with ⟨q, hq, rfl⟩
        exact ⟨q, by rw [nodePathsFields]; exact List.mem_append.mpr (Or.inr hq), rfl⟩

mutual

/-- Distinct leaf paths of a type never stand in the prefix relation: a leaf
path ends at a leaf node, so no other leaf path can pass through it. -/
lemma leafPaths_antichain : ∀ (t : SILType) (q1 q2 : List Projection),
    q1 ∈ leafPaths t → q2 ∈ leafPaths t → q1 ≠ q2 → ¬ q1 <+: q2
  | .leaf _, q1, q2, h1, h2, hne => by
      simp [leafPaths] at h1 h2
      exact absurd (h1.trans h2.symm) hne
  | .aggregate fs, q1, q2, h1, h2, hne =>
      leafPathsFields_antichain fs 0 q1 q2 h1 h2 hne

/-- Field-list version of the leaf-path antichain property. -/
lemma leafPathsFields_antichain :
    ∀ (ts : List SILType) (i : Nat) (q1 q2 : List Projection),
      q1 ∈ leafPathsFields ts i → q2 ∈ leafPathsFields ts i → q1 ≠ q2 → ¬ q1 <+: q2
  | [], _, q1, _, h1, _, _ => absurd h1 (by simp [leafPathsFields])
  | t :: ts, i, q1, q2, h1, h2, hne => by
      rw [leafPathsFields] at h1 h2
      rcases List.mem_append.mp h1 with ha | ha <;> rcases List.mem_append.mp h2 with hb | hb
      · rcases List.mem_map.mp ha with ⟨a, haa, rfl⟩
        rcases List.mem_map.mp hb with ⟨b, hbb, rfl⟩
        intro hpre
        rcases List.cons_prefix_cons.mp hpre with ⟨-, hab⟩
        exact leafPaths_antichain t a b haa hbb (fun he => hne (by rw [he])) hab
      · rcases List.mem_map.mp ha with ⟨a, haa, rfl⟩
        rcases mem_leafPathsFields_shape ts (i + 1) _ hb with ⟨j, t2, b2, hij, rfl⟩
        intro hpre
        rcases List.cons_prefix_cons.mp hpre with ⟨hhead, -⟩
        have hidx := congrArg Projection.idx hhead
        simp [mkField] at hidx
        omega
      · rcases List.mem_map.mp hb with ⟨b, hbb, rfl⟩
        rcases mem_leafPathsFields_shape ts (i + 1) _ ha with ⟨j, t2, a2, hij, rfl⟩
        intro hpre
        rcases List.cons_prefix_cons.mp hpre with ⟨hhead, -⟩
        have hidx := congrArg Projection.idx hhead
        simp [mkField] at hidx
        omega
      · exact leafPathsFields_antichain ts (i + 1) q1 q2 ha hb hne

end

mutual

/-- The leaf paths of a type are pairwise distinct. -/
lemma leafPaths_nodup : ∀ (t : SILType), (leafPaths t).Nodup
  | .leaf _ => by simp [leafPaths]
  | .aggregate fs => leafPathsFields_nodup fs 0

/-- Field-list version of leaf-path distinctness. -/
lemma leafPathsFields_nodup : ∀ (ts : List SILType) (i : Nat),
    (leafPathsFields ts i).Nodup
  | [], _ => by simp [leafPathsFields]
  | t :: ts, i => by
      show ((leafPaths t).map (fun q => mkField i t :: q)
        ++ leafPathsFields ts (i + 1)).Nodup
      refine List.Nodup.append ?_ (leafPathsFields_nodup ts (i + 1)) ?_
      · refine (leafPaths_nodup t).map ?_
        intro a b hab
        injection hab
      · intro q hq1 hq2
        rcases List.mem_map.mp hq1 with ⟨a, -, rfl⟩
        rcases mem_leafPathsFields_shape ts (i + 1) _ hq2 with ⟨j, t2, q2, hij, heq⟩
        injection heq with hhead htail
        have hidx := congrArg Projection.idx hhead
        simp [mkField] at hidx
        omega

end

mutual

/-- The merging pass applied to exactly the leaf set of a subtree (plus any
unrelated paths) collapses the leaves to the subtree's own path and leaves
the rest untouched. -/
lemma reduceAt_roundtrip : ∀ (t : SILType) (pre : List Projection)
    (T : Finset (List Projection)),
    (∀ q ∈ nodePaths t, pre ++ q ∉ T) →
    reduceAt t pre (((leafPaths t).map (fun q => pre ++ q)).toFinset ∪ T)
      = {pre} ∪ T
  | .leaf n, pre, T, _ => by
      rw [reduceAt]
      simp [leafPaths]
  | .aggregate fs, pre, T, h => by
      have hfields : reduceFields fs 0 pre
            (((leafPaths (SILType.aggregate fs)).map (fun q => pre ++ q)).toFinset ∪ T)
          = (childPaths pre fs 0).toFinset ∪ T := by
        show reduceFields fs 0 pre
            (((leafPathsFields fs 0).map (fun q => pre ++ q)).toFinset ∪ T)
          = (childPaths pre fs 0).toFinset ∪ T
        refine reduceFields_roundtrip fs 0 pre T ?_
        intro q hq
        exact h q (by rw [nodePaths]; exact List.mem_cons_of_mem _ hq)
      have hdis : ∀ c ∈ childPaths pre fs 0, c ∉ T := by
        intro c hc
        rcases childPaths_shape pre fs 0 c hc with ⟨q, hq, rfl⟩
        exact h q (by rw [nodePaths]; exact List.mem_cons_of_mem _ hq)
      rw [reduceAt]
      simp only [hfields]
      have hcond : ((childPaths pre fs 0).all
          (fun c => decide (c ∈ (childPaths pre fs 0).toFinset ∪ T))) = true := by
        rw [List.all_eq_true]
        intro c hc
        simp [Finset.mem_union, List.mem_toFinset.mpr hc]
      rw [if_pos hcond]
      ext x
      simp only [Finset.mem_union, Finset.mem_sdiff, Finset.mem_singleton,
        List.mem_toFinset]
      constructor
      · rintro (⟨hx | hx, hnx⟩ | hx)
        · exact absurd hx hnx
        · exact Or.inr hx
        · exact Or.inl hx
      · rintro (hx | hx)
        · exact Or.inr hx
        · exact Or.inl ⟨Or.inr hx, fun hc => hdis x hc hx⟩

/-- Field-list version of the round-trip merging lemma, fields numbered
from i. -/
lemma reduceFields_roundtrip : ∀ (ts : List SILType) (i : Nat)
    (pre : List Projection) (T : Finset (List Projection)),
    (∀ q ∈ nodePathsFields ts i, pre ++ q ∉ T) →
    reduceFields ts i pre (((leafPathsFields ts i).map (fun q => pre ++ q)).toFinset ∪ T)
      = (childPaths pre ts i).toFinset ∪ T
  | [], i, pre, T, _ => by
      rw [reduceFields]
      simp [leafPathsFields, childPaths]
  | t :: ts, i, pre, T, h => by
      have hsplit : ((leafPathsFields (t :: ts) i).map (fun q => pre ++ q)).toFinset
          = ((leafPaths t).map (fun q => (pre ++ [mkField i t]) ++ q)).toFinset
            ∪ ((leafPathsFields ts (i + 1)).map (fun q => pre ++ q)).toFinset := by
        rw [leafPathsFields, List.map_append, List.toFinset_append, List.map_map]
        simp [Function.comp_def, List.append_assoc]
      have h1 : reduceAt t (pre ++ [mkField i t])
            (((leafPaths t).map (fun q => (pre ++ [mkField i t]) ++ q)).toFinset
              ∪ (((leafPathsFields ts (i + 1)).map (fun q => pre ++ q)).toFinset ∪ T))
          = {pre ++ [mkField i t]}
            ∪ (((leafPathsFields ts (i + 1)).map (fun q => pre ++ q)).toFinset ∪ T) := by
        refine reduceAt_roundtrip t (pre ++ [mkField i t]) _ ?_
        intro q hq hmem
        rcases Finset.mem_union.mp hmem with hB | hT
        · rw [List.mem_toFinset] at hB
          rcases List.mem_map.mp hB with ⟨b, hbmem, hbe⟩
          rw [List.append_assoc, List.singleton_append] at hbe
          have hb := List.append_cancel_left hbe
          rcases mem_leafPathsFields_shape ts (i + 1) b hbmem with ⟨j, t2, b2, hij, rfl⟩
          injection hb with hhead htail
          have hidx := congrArg Projection.idx hhead
          simp [mkField] at hidx
          omega
        · rw [List.append_assoc, List.singleton_append] at hT
          refine h (mkField i t :: q) ?_ hT
          rw [nodePathsFields]
          exact List.mem_append.mpr (Or.inl (List.mem_map.mpr ⟨q, hq, rfl⟩))
      have h2 : reduceFields ts (i + 1) pre
            (((leafPathsFields ts (i + 1)).map (fun q => pre ++ q)).toFinset
              ∪ ({pre ++ [mkField i t]} ∪ T))
          = (childPaths pre ts (i + 1)).toFinset ∪ ({pre ++ [mkField i t]} ∪ T) := by
        refine reduceFields_roundtrip ts (i + 1) pre _ ?_
        intro q hq hmem
        rcases Finset.mem_union.mp hmem with hx | hT
        · rw [Finset.mem_singleton] at hx
          have hq2 := List.append_cancel_left hx
          rcases mem_nodePathsFields_shape ts (i + 1) q hq with ⟨j, t2, q2, hij, rfl⟩
          injection hq2 with hhead htail
          have hidx := congrArg Projection.idx hhead
          simp [mkField] at hidx
          omega
        · exact h q (by rw [nodePathsFields]; exact List.mem_append.mpr (Or.inr hq)) hT
      rw [reduceFields, hsplit, Finset.union_assoc, h1, Finset.union_left_comm, h2,
        childPaths, List.toFinset_cons, Finset.insert_eq, Finset.union_left_comm,
        Finset.union_assoc]

end

/-- C3: the round-trip law.  Reducing the set of leaf locations produced by
expanding a valid, fully-decomposable, non-sentinel location collapses it
back to exactly that single location. -/
theorem reduce_expand_roundtrip (L : MemLocation) (p : List Projection)
    (hk : L.kind = KeyKind.normalKey) (hp : L.path = some p)
    (hv : L.isValid = true) (hfd : fullyDecomposable L.locType = true) :
    reduce L (expand L).toFinset = {L} := by
  have hgetd : L.path.getD [] = p := by rw [hp]; rfl
  have hempty := reduceAt_roundtrip L.locType p ∅ (fun q _ => Finset.not_mem_empty _)
  rw [Finset.union_empty, Finset.union_empty] at hempty
  unfold reduce expand
  rw [list_toFinset_image, List.map_map]
  have hcomp : ((fun X : MemLocation => X.path.getD []) ∘ locationAfter L)
      = fun q => p ++ q := by
    funext q
    simp [locationAfter, hp]
  rw [hcomp, hgetd]
  simp only [hempty, Finset.image_singleton]
  congr 1
  cases L with
  | mk b k pa =>
      simp only at hp
      rw [hp]

/-- C3 witness at a concrete two-level aggregate location. -/
theorem reduce_expand_roundtrip_witness :
    reduce exLocNest (expand exLocNest).toFinset = {exLocNest} :=
  reduce_expand_roundtrip exLocNest [] rfl rfl (by decide) (by decide)

/-- C8: expansion is total and disjoint.  The leaves produced by expand are
exactly one location per root-to-leaf selector path of the location's type
(full coverage of its extent, no gaps), they are pairwise distinct, and any
two distinct produced leaves have a non-empty symmetric path difference (no
overlaps).  Termination holds because expand is a total function of the
finite, acyclic type tree. -/
theorem expand_total_disjoint (L : MemLocation) (p : List Projection)
    (hp : L.path = some p) :
    ((expand L).map fun X => X.path.getD [])
        = (leafPaths L.locType).map (fun a => p ++ a)
    ∧ (expand L).Nodup
    ∧ ∀ X, X ∈ expand L → ∀ Y, Y ∈ expand L → X ≠ Y →
        X.hasNonEmptySymmetricPathDifference Y = true := by
  have hcomp : ((fun X : MemLocation => X.path.getD []) ∘ locationAfter L)
      = fun q => p ++ q := by
    funext q
    simp [locationAfter, hp]
  refine ⟨?_, ?_, ?_⟩
  · unfold expand
    rw [List.map_map, hcomp]
  · unfold expand
    refine (leafPaths_nodup L.locType).map ?_
    intro a b hab
    have hsome : some (p ++ a) = some (p ++ b) := by
      simpa [locationAfter, hp] using congrArg MemLocation.path hab
    exact List.append_cancel_left (Option.some.inj hsome)
  · intro X hX Y hY hne
    unfold expand at hX hY
    rcases List.mem_map.mp hX with ⟨a, ha, rfl⟩
    rcases List.mem_map.mp hY with ⟨b, hb, rfl⟩
    have hne2 : a ≠ b := fun he => hne (by rw [he])
    have h1 : ¬ a <+: b := leafPaths_antichain L.locType a b ha hb hne2
    have h2 : ¬ b <+: a :=
      leafPaths_antichain L.locType b a hb ha (fun he => hne2 he.symm)
    unfold MemLocation.hasNonEmptySymmetricPathDifference hasNonEmptySymDiffList
    simp [locationAfter, hp, prefix_append_cancel, h1, h2]

/-- C8 witness at the concrete two-level aggregate location: the produced
leaf list and the disjointness of its first two (distinct) leaves. -/
theorem expand_total_disjoint_witness :
    ((expand exLocNest).map fun X => X.path.getD [])
        = (leafPaths exLocNest.locType).map (fun a => [] ++ a)
    ∧ (expand exLocNest).Nodup
    ∧ exLeaf1.hasNonEmptySymmetricPathDifference exLeaf2 = true := by
  have h := expand_total_disjoint exLocNest [] rfl
  exact ⟨h.1, h.2.1, h.2.2 exLeaf1 (by decide) exLeaf2 (by decide) (by decide)⟩

end MemLoc
